import Mathlib

/-!
Formal model of the rTMS-NeuroMarkers preprocessing pipeline
(`src/preprocessing.py`, `src/utils.py`).

Signals are modelled exactly: sample values are rationals (`ℚ`), missing
samples (`NaN`) are `Option.none`.  Behaviour of the external toolkit
(MNE / numpy / scipy) that the repository's functions delegate to is
embedded from the library's documented semantics, noted at each
definition.
-/

namespace NeuroMarkers

/-- Python `int(q)` on a real value: truncation toward zero
(`⌊q⌋` for `q ≥ 0`, `⌈q⌉` otherwise). -/
def pyInt (q : ℚ) : ℤ :=
  if 0 ≤ q then ⌊q⌋ else ⌈q⌉

/-- Python / numpy `round(q)` on a real value: round half to even
(banker's rounding), as used by MNE when converting times to sample
indices. -/
def pyRound (q : ℚ) : ℤ :=
  if q - ⌊q⌋ < 1/2 then ⌊q⌋
  else if 1/2 < q - ⌊q⌋ then ⌊q⌋ + 1
  else if 2 ∣ ⌊q⌋ then ⌊q⌋ else ⌊q⌋ + 1

/-- The in-memory EEG recording container (`mne.io.Raw` as used by this
repository): a channels × samples matrix of exact sample values, channel
names and type tags, and a sampling rate. -/
structure Raw where
  ch_names : List String
  ch_types : List String
  data : List (List ℚ)
  sfreq : ℚ
deriving DecidableEq, Repr

/-- `raw.n_times`: the number of samples on the time axis (length of a
data row; rows of a well-formed container all share this length). -/
def nTimes (raw : Raw) : ℕ :=
  match raw.data with
  | [] => 0
  | r :: _ => r.length

/-- MNE `Raw.crop(tmin, tmax)` with the default `include_tmax=True`:
keeps the samples whose index `k` satisfies
`round(tmin*sfreq) ≤ k ≤ round(tmax*sfreq)` — note that the sample at
time `tmax` is INCLUDED.  `tmax = none` means "up to the end of the
data".  (MNE `_time_mask`: the bounds are pushed half a sample outward
around the rounded sample indices, so the kept index range is exactly
`[round(tmin*sfreq), round(tmax*sfreq)]`, clipped to the data.) -/
def crop (raw : Raw) (tmin : ℚ) (tmax : Option ℚ) : Raw :=
  let n : ℤ := (nTimes raw : ℤ)
  let smin : ℤ := max (pyRound (tmin * raw.sfreq)) 0
  let smax : ℤ :=
    match tmax with
    | none => n - 1
    | some t => min (pyRound (t * raw.sfreq)) (n - 1)
  { raw with
    data := raw.data.map (fun r => ((r.drop smin.toNat).take (smax - smin + 1).toNat)) }

/-- `realign_final_session` (`src/preprocessing.py:174`): take the last
session, crop a first half up to time `midpoint/sfreq` and a second half
from time `midpoint/sfreq`, overwrite the last list entry with the first
half and append the second half.  An empty session list raises
`IndexError` at `mne_raw_sessions[-1]` (modelled as `none`). -/
def realign_final_session (sessions : List Raw) : Option (List Raw) :=
  match sessions.getLast? with
  | none => none
  | some raw_final_session =>
    let midpoint_samples : ℕ := nTimes raw_final_session / 2
    let raw_first_half :=
      crop raw_final_session 0
        (some ((midpoint_samples : ℚ) / raw_final_session.sfreq))
    let raw_second_half :=
      crop raw_final_session ((midpoint_samples : ℚ) / raw_final_session.sfreq) none
    some (sessions.dropLast ++ [raw_first_half, raw_second_half])

/-- The call-level view of `realign_final_session`, recording the effect
on the caller's list object: the source assigns `mne_raw_sessions[-1]`
and calls `mne_raw_sessions.append(...)`, both of which mutate the
argument list in place, and then returns that same list.  The first
component is the contents of the input list object after the call; the
second is the returned value (`none` when `IndexError` escapes, in which
case the input is untouched). -/
def realignCall (sessions : List Raw) : List Raw × Option (List Raw) :=
  match realign_final_session sessions with
  | none => (sessions, none)
  | some l => (l, some l)

/-! ## `interpolate_nans` (`src/preprocessing.py:218`)

The input is a bare numeric matrix (channels × samples); a missing
sample (`NaN`) is `Option.none`.  Each channel row is processed in
place: the valid samples `(index, value)` are collected and each missing
position is replaced by `np.interp` of its index over those points. -/

/-- A channel row: sample values with `none` marking `NaN`. -/
abbrev NRow := List (Option ℚ)

/-- A channels × samples matrix with possibly missing samples. -/
abbrev NMatrix := List NRow

/-- The valid `(sample index, value)` pairs of a channel row starting
at index `k`: the recursion walks the row keeping the non-missing
entries with their indices. -/
def validPairsFrom (k : ℕ) : NRow → List (ℚ × ℚ)
  | [] => []
  | none :: rest => validPairsFrom (k + 1) rest
  | some v :: rest => ((k : ℚ), v) :: validPairsFrom (k + 1) rest

/-- The valid `(sample index, value)` pairs of a channel row, in
increasing index order — `indices[~nans]` paired with
`channel_data[~nans]` in the source. -/
def validPairs (r : NRow) : List (ℚ × ℚ) :=
  validPairsFrom 0 r

/-- `np.interp x xp fp` for strictly increasing sample points `xp`
(given here as the pair list `pts = xp.zip fp`): values left of the
first point clamp to its value, values right of the last point clamp to
its value, and interior values are linearly interpolated on the
surrounding interval.  (numpy raises on an empty `xp`; the empty case
never arises here and yields `0`.) -/
def npInterp (x : ℚ) : List (ℚ × ℚ) → ℚ
  | [] => 0
  | [p] => p.2
  | p :: q :: rest =>
    if x ≤ p.1 then p.2
    else if x ≤ q.1 then p.2 + (q.2 - p.2) * (x - p.1) / (q.1 - p.1)
    else npInterp x (q :: rest)

/-- The assignment `channel_data[nans] = np.interp(indices[nans], ...)`,
walking the row from index `k`: missing positions are replaced by
`np.interp` of their index over the valid points `pts`; valid positions
are left untouched, since the source only assigns `channel_data[nans]`. -/
def interpRowFrom (pts : List (ℚ × ℚ)) (k : ℕ) : NRow → NRow
  | [] => []
  | some v :: rest => some v :: interpRowFrom pts (k + 1) rest
  | none :: rest => some (npInterp (k : ℚ) pts) :: interpRowFrom pts (k + 1) rest

/-- One loop iteration of `interpolate_nans` on one channel row:
`none` when the row has no valid sample (`np.interp` raises
`ValueError: array of sample points is empty`), otherwise the row with
every missing position replaced by `np.interp` of its index over the
valid points. -/
def interpRow (r : NRow) : Option NRow :=
  if validPairs r = [] then none
  else some (interpRowFrom (validPairs r) 0 r)

/-- The channel loop of `interpolate_nans`, processing rows in order and
stopping at the first row with no valid sample.  Returns the contents of
the matrix object after the loop and whether the loop completed (`true`)
or an exception escaped (`false`); rows after a failing row are left
unprocessed, since each assignment `channel_data[nans] = ...` writes
through a view into the input array. -/
def interpGo : NMatrix → NMatrix × Bool
  | [] => ([], true)
  | r :: rest =>
    match interpRow r with
    | none => (r :: rest, false)
    | some r' =>
      let p := interpGo rest
      (r' :: p.1, p.2)

/-- The call-level view of `interpolate_nans`: first component is the
contents of the input array object after the call (the loop mutates it
in place); second component is the returned object — the source ends
with `return data`, so on success the returned matrix IS the mutated
input, and on failure (`none`) nothing is returned. -/
def interpolate_nansCall (data : NMatrix) : NMatrix × Option NMatrix :=
  let p := interpGo data
  (p.1, if p.2 then some p.1 else none)

/-- Errors surfaced by the preprocessing layer (spec §7 taxonomy). -/
inductive PErr where
  | insufficientData
deriving DecidableEq, Repr

/-- `interpolate_nans` as a fallible function: the returned matrix, or
`InsufficientDataError` when some channel has no valid sample. -/
def interpolate_nans (data : NMatrix) : Except PErr NMatrix :=
  match interpolate_nansCall data with
  | (_, some r) => .ok r
  | (_, none) => .error .insufficientData

/-- The nearest valid sample strictly before index `i` of a row (the
spec's "nearest non-missing neighbor by sample index" on the left):
the last valid pair with index below `i`. -/
def prevValid (r : NRow) (i : ℕ) : Option (ℚ × ℚ) :=
  ((validPairs r).filter (fun p => p.1 < (i : ℚ))).getLast?

/-- The nearest valid sample strictly after index `i` of a row (the
spec's "nearest non-missing neighbor by sample index" on the right):
the first valid pair with index above `i`. -/
def nextValid (r : NRow) (i : ℕ) : Option (ℚ × ℚ) :=
  ((validPairs r).filter (fun p => (i : ℚ) < p.1)).head?

/-! ## `bandpass_filter` (`src/preprocessing.py:101`)

The source forwards to MNE `Raw.filter(l_freq, h_freq)`.  Parameter
triage follows MNE `create_filter` / `_triage_filter_params`:
* `h_freq` greater than the Nyquist frequency raises
  `ValueError: h_freq must be less than the Nyquist frequency`;
* an `l_freq` of `0` is converted to `None`, giving a pure low-pass;
* `l_freq < h_freq` designs a band-pass filter;
* `l_freq > h_freq` designs a band-STOP filter (documented MNE
  behaviour) — it does not fail;
* the automatic transition bandwidth of the filter's upper edge `f`
  (the cutoff `h_freq` for low-pass and band-pass, the stop-band edge
  `l_freq` for band-stop) is `min(max(0.25·f, 2), nyq − f)`, and the design
  rejects a non-positive transition bandwidth — so an edge AT (or past)
  the Nyquist frequency itself also fails, even though it passes the
  explicit `h_freq > nyq` check;
* the remaining combination `l_freq = h_freq` (nonzero) is rejected by
  the filter design.
The FIR numerics themselves are delegated wholesale to the library and
are not modelled; only success/failure and the kind of filter designed
matter here. -/

/-- The kind of FIR filter MNE designs for a `(l_freq, h_freq)` pair. -/
inductive FilterKind where
  | lowpass
  | bandpass
  | bandstop
deriving DecidableEq, Repr

/-- Failure of MNE's filter-parameter validation (`FilterError` in the
spec's taxonomy). -/
inductive FilterErr where
  | freqAboveNyquist
  | nonPositiveTransBandwidth
  | invalidFreqs
deriving DecidableEq, Repr

/-- MNE `create_filter` parameter triage for `filter(l_freq, h_freq)`
at Nyquist frequency `nyq = sfreq / 2`: after the explicit `h > nyq`
check and band selection, the upper filter edge must lie strictly below
`nyq`, since its automatic transition bandwidth
`min(max(0.25·f, 2), nyq − f)` must be positive. -/
def mneCreateFilterKind (l h nyq : ℚ) : Except FilterErr FilterKind :=
  if nyq < h then .error .freqAboveNyquist
  else if l = 0 then
    if h < nyq then .ok .lowpass else .error .nonPositiveTransBandwidth
  else if 0 < l ∧ l < h then
    if h < nyq then .ok .bandpass else .error .nonPositiveTransBandwidth
  else if 0 < h ∧ h < l then
    if l < nyq then .ok .bandstop else .error .nonPositiveTransBandwidth
  else .error .invalidFreqs

/-- `bandpass_filter`: `data.copy().filter(l_freq, h_freq)` — a copy is
filtered, so the input is untouched; the call fails exactly when MNE's
parameter triage fails. -/
def bandpass_filter (data : Raw) (l_freq h_freq : ℚ) : Except FilterErr Raw :=
  (mneCreateFilterKind l_freq h_freq (data.sfreq / 2)).map (fun _ => data)

/-! ## `create_epochs` (`src/preprocessing.py:17`)

Events are anchored at sample `int(start_time * sfreq)` (Python `int`
truncation).  `mne.Epochs(..., tmin=0, tmax=duration - 1/sfreq)` keeps,
for each event sample `e`, the samples
`e + round(tmin*sfreq) .. e + round(tmax*sfreq)` (both ends inclusive),
and silently drops events whose window would leave the recording. -/

/-- The event sample indices built by `create_epochs`:
`[int(start_time * sfreq), 0, 1]` for each start time (only the anchor
column matters for the data windows). -/
def epochEvents (start_times : List ℚ) (sfreq : ℚ) : List ℤ :=
  start_times.map (fun start_time => pyInt (start_time * sfreq))

/-- MNE `Epochs` data extraction: each surviving event `e` yields the
channels × samples window `[e + smin, e + smax]` where
`smin = round(tmin*sfreq)` and `smax = round(tmax*sfreq)`; events whose
window is not entirely inside the recording are dropped. -/
def mneEpochsData (raw : Raw) (events : List ℤ) (tmin tmax : ℚ) :
    List (List (List ℚ)) :=
  let smin : ℤ := pyRound (tmin * raw.sfreq)
  let smax : ℤ := pyRound (tmax * raw.sfreq)
  let n : ℤ := (nTimes raw : ℤ)
  (events.filter (fun e => 0 ≤ e + smin ∧ e + smax < n)).map (fun e =>
    raw.data.map (fun r =>
      ((r.drop (e + smin).toNat).take (smax - smin + 1).toNat)))

/-- `create_epochs(data, start_times, duration)`: segments the recording
into the per-event windows of `mne.Epochs` with `tmin = 0` and
`tmax = duration - 1/sfreq`. -/
def create_epochs (data : Raw) (start_times : List ℚ) (duration : ℚ) :
    List (List (List ℚ)) :=
  let sfreq := data.sfreq
  mneEpochsData data (epochEvents start_times sfreq) 0 (duration - 1 / sfreq)

/-! ## `re_reference` (`src/preprocessing.py:136`)

`data.copy().set_eeg_reference(ref_channels)`: with `"average"`, the
per-sample mean of the EEG channels is subtracted from every EEG
channel; with an explicit channel list, the per-sample mean of the named
channels is subtracted from every EEG channel.  Non-EEG channels are
untouched.  The copy makes the operation pure. -/

/-- The reference argument of `set_eeg_reference`. -/
inductive RefChannels where
  | average
  | channels (names : List String)
deriving DecidableEq, Repr

/-- Sum of column `t` over a list of rows (missing entries count 0;
rows of a well-formed container all have length `> t`). -/
def colSum (rows : List (List ℚ)) (t : ℕ) : ℚ :=
  (rows.map (fun r => r.getD t 0)).sum

/-- `re_reference`: subtract the per-sample mean of the reference rows
from every EEG channel of a copy of the data. -/
def re_reference (data : Raw) (ref_channels : RefChannels) : Raw :=
  let tagged := (data.ch_names.zip data.ch_types).zip data.data
  let refRows : List (List ℚ) :=
    match ref_channels with
    | .average => (tagged.filter (fun p => p.1.2 = "eeg")).map (fun p => p.2)
    | .channels names => (tagged.filter (fun p => p.1.1 ∈ names)).map (fun p => p.2)
  let refMean : ℕ → ℚ := fun t => colSum refRows t / refRows.length
  { data with
    data := tagged.map (fun p =>
      if p.1.2 = "eeg" then p.2.mapIdx (fun t v => v - refMean t) else p.2) }

/-! ## `signal_detrend` (`src/preprocessing.py:250`)

`data.copy().apply_function(scipy.signal.detrend, picks="eeg",
channel_wise=True)`: each EEG channel row is replaced by the residual of
its least-squares linear fit against the sample indices `0, …, n-1`.
The closed-form least-squares slope/intercept below are what
`scipy.signal.detrend(type='linear')` computes (for `n ≤ 1` the fit is
exact and the residual is zero; with ℚ's `x / 0 = 0` convention the same
formulas produce that case too). -/

/-- `scipy.signal.detrend` (linear) on one channel row. -/
def scipyDetrend (y : List ℚ) : List ℚ :=
  let n := y.length
  let sx : ℚ := ∑ k ∈ Finset.range n, (k : ℚ)
  let sxx : ℚ := ∑ k ∈ Finset.range n, ((k : ℚ)) ^ 2
  let sy : ℚ := ∑ k ∈ Finset.range n, y.getD k 0
  let sxy : ℚ := ∑ k ∈ Finset.range n, (k : ℚ) * y.getD k 0
  let slope : ℚ := ((n : ℚ) * sxy - sx * sy) / ((n : ℚ) * sxx - sx ^ 2)
  let intercept : ℚ := (sy - slope * sx) / (n : ℚ)
  (List.range n).map (fun k => y.getD k 0 - (intercept + slope * (k : ℚ)))

/-- `signal_detrend`: detrend every channel tagged `"eeg"` of a copy of
the data, channel-wise; other channels are untouched. -/
def signal_detrend (data : Raw) : Raw :=
  { data with
    data := List.zipWith
      (fun ty r => if ty = "eeg" then scipyDetrend r else r)
      data.ch_types data.data }

/-! ## `load_mne_data` (`src/utils.py:96`) -/

/-- Which MNE loader `load_mne_data` dispatches to. -/
inductive MneLoader where
  | continuousReader
  | segmentedReader
deriving DecidableEq, Repr

/-- Failure of `load_mne_data`'s suffix dispatch
(`ValueError: Invalid file format. Supported formats: _raw.fif,
_epo.fif` — `UnsupportedFormatError` in the spec's taxonomy). -/
inductive LoadErr where
  | unsupportedFormat
deriving DecidableEq, Repr

/-- Python `str.endswith`: does `s` end with the given `suf` string. -/
def strEndsWith (s suf : String) : Bool :=
  suf.toList.isSuffixOf s.toList

/-- `load_mne_data` dispatch: a filename ending in `"_raw.fif"` selects
`mne.io.read_raw_fif`, one ending in `"_epo.fif"` selects
`mne.read_epochs`, and anything else raises before any file is read. -/
def load_mne_data (filename : String) : Except LoadErr MneLoader :=
  if strEndsWith filename "_raw.fif" || strEndsWith filename "_epo.fif" then
    .ok (if strEndsWith filename "_raw.fif" then .continuousReader else .segmentedReader)
  else
    .error .unsupportedFormat

/-! ## Sample containers used as concrete inputs -/

/-- A one-channel, four-sample session at 1 Hz. -/
def sampleSession4 : Raw :=
  { ch_names := ["C3"], ch_types := ["eeg"], data := [[1, 2, 3, 4]], sfreq := 1 }

/-- A two-channel, two-sample container at 100 Hz. -/
def sampleRaw100 : Raw :=
  { ch_names := ["C3", "C4"], ch_types := ["eeg", "eeg"],
    data := [[1, 2], [3, 4]], sfreq := 100 }

/-- A one-channel container of 400 zero samples at 100 Hz. -/
def sampleRaw400 : Raw :=
  { ch_names := ["C3"], ch_types := ["eeg"],
    data := [List.replicate 400 0], sfreq := 100 }

/-! ## Supporting lemmas -/

/-- The 400-sample container has 400 time points. -/
theorem nTimes_sampleRaw400 : nTimes sampleRaw400 = 400 :=
  List.length_replicate 400 0

/-- `pyInt` on a nonnegative rational is the floor. -/
theorem pyInt_nonneg (q : ℚ) (hq : 0 ≤ q) : pyInt q = ⌊q⌋ := by
  rw [pyInt, if_pos hq]

/-- `pyRound` is the identity on integers. -/
theorem pyRound_intCast (m : ℤ) : pyRound (m : ℚ) = m := by
  simp [pyRound]

/-- `pyRound` is the identity on natural numbers. -/
theorem pyRound_natCast (m : ℕ) : pyRound (m : ℚ) = m := by
  have := pyRound_intCast (m : ℤ)
  simpa using this

/-- A row whose entries are all missing has no valid pairs. -/
theorem validPairsFrom_eq_nil (r : NRow) (h : ∀ x ∈ r, x = none) :
    ∀ k, validPairsFrom k r = [] := by
  induction r with
  | nil => intro k; rfl
  | cons a rest ih =>
    intro k
    have ha : a = none := h a (by simp)
    subst ha
    have hrest : ∀ x ∈ rest, x = none := fun x hx => h x (List.mem_cons_of_mem _ hx)
    simpa [validPairsFrom] using ih hrest (k + 1)

/-- A row with an attached valid sample has a nonempty pair list. -/
theorem interpRow_eq_none_iff (r : NRow) :
    interpRow r = none ↔ validPairs r = [] := by
  by_cases h : validPairs r = [] <;> simp [interpRow, h]

/-- If some channel of the matrix has no valid sample, the channel loop
stops with an exception. -/
theorem interpGo_snd_false (m : NMatrix)
    (h : ∃ r ∈ m, interpRow r = none) : (interpGo m).2 = false := by
  induction m with
  | nil => simp at h
  | cons r rest ih =>
    obtain ⟨r₀, hr₀, hnone⟩ := h
    rcases List.mem_cons.mp hr₀ with rfl | hmem
    · simp [interpGo, hnone]
    · cases hR : interpRow r with
      | none => simp [interpGo, hR]
      | some r' => simpa [interpGo, hR] using ih ⟨r₀, hmem, hnone⟩

/-! ## Claim theorems -/

/-- C6: for every matrix in which some channel row contains no valid
(non-missing) sample, `interpolate_nans` fails with
`InsufficientDataError` rather than returning a result. -/
theorem interpolate_nans_fails_on_all_nan_channel (m : NMatrix)
    (h : ∃ r ∈ m, ∀ x ∈ r, x = none) :
    interpolate_nans m = .error .insufficientData := by
  obtain ⟨r, hr, hall⟩ := h
  have hrow : interpRow r = none :=
    (interpRow_eq_none_iff r).mpr (validPairsFrom_eq_nil r hall 0)
  have hsnd : (interpGo m).2 = false := interpGo_snd_false m ⟨r, hr, hrow⟩
  simp [interpolate_nans, interpolate_nansCall, hsnd]

/-- Witness for C6: a concrete two-channel matrix whose second channel
is entirely missing makes `interpolate_nans` fail. -/
theorem interpolate_nans_fails_on_all_nan_channel_witness :
    interpolate_nans [[some 1, some 2], [none, none]] = .error .insufficientData :=
  interpolate_nans_fails_on_all_nan_channel [[some 1, some 2], [none, none]]
    ⟨[none, none], by simp, by simp⟩

/-- C7: `load_mne_data` dispatches purely on the filename suffix — the
continuous suffix `"_raw.fif"` selects the continuous reader, the
segmented suffix `"_epo.fif"` selects the segmented reader, and any
other filename fails with `UnsupportedFormatError` before any file is
read. -/
theorem load_mne_data_dispatch (filename : String) :
    (strEndsWith filename "_raw.fif" →
      load_mne_data filename = .ok .continuousReader) ∧
    (¬ strEndsWith filename "_raw.fif" → strEndsWith filename "_epo.fif" →
      load_mne_data filename = .ok .segmentedReader) ∧
    (¬ strEndsWith filename "_raw.fif" → ¬ strEndsWith filename "_epo.fif" →
      load_mne_data filename = .error .unsupportedFormat) := by
  refine ⟨fun h => ?_, fun h1 h2 => ?_, fun h1 h2 => ?_⟩
  · simp [load_mne_data, h]
  · simp [load_mne_data, h1, h2]
  · simp [load_mne_data, h1, h2]

/-- Witness for C7: the three dispatch outcomes at concrete
filenames. -/
theorem load_mne_data_dispatch_witness :
    load_mne_data "subj1_raw.fif" = .ok .continuousReader ∧
    load_mne_data "subj1_epo.fif" = .ok .segmentedReader ∧
    load_mne_data "subj1.txt" = .error .unsupportedFormat :=
  ⟨(load_mne_data_dispatch "subj1_raw.fif").1 (by decide),
   (load_mne_data_dispatch "subj1_epo.fif").2.1 (by decide) (by decide),
   (load_mne_data_dispatch "subj1.txt").2.2 (by decide) (by decide)⟩

/-- C5 counterexample: at 100 Hz, `bandpass_filter` with
`low = 10 ≥ 5 = high` does NOT fail — MNE designs a band-stop filter
for `l_freq > h_freq` and the call succeeds. -/
theorem bandpass_filter_low_ge_high_succeeds :
    (5 : ℚ) ≤ 10 ∧
    bandpass_filter sampleRaw100 10 5 = .ok sampleRaw100 ∧
    mneCreateFilterKind 10 5 (sampleRaw100.sfreq / 2) = .ok .bandstop := by
  refine ⟨by norm_num, ?_, ?_⟩ <;>
    simp [bandpass_filter, Except.map, mneCreateFilterKind, sampleRaw100] <;> norm_num

/-- C5 amended: for `0 ≤ low < high < Nyquist` the call succeeds; for
`0 < high < low < Nyquist` the call also succeeds, designing a band-stop
filter rather than failing; the call fails with `FilterError` when
`high` exceeds the Nyquist frequency, and also when the filter's upper
edge sits exactly at the Nyquist frequency (`high = Nyquist` for a
band-pass, where the automatic transition bandwidth
`min(max(0.25·high, 2), Nyquist − high)` is zero and is rejected as
non-positive). -/
theorem bandpass_filter_triage (data : Raw) (l h : ℚ) :
    (0 ≤ l → l < h → h < data.sfreq / 2 →
      bandpass_filter data l h = .ok data) ∧
    (0 < h → h < l → l < data.sfreq / 2 →
      bandpass_filter data l h = .ok data ∧
      mneCreateFilterKind l h (data.sfreq / 2) = .ok .bandstop) ∧
    (data.sfreq / 2 < h →
      bandpass_filter data l h = .error .freqAboveNyquist) ∧
    (0 ≤ l → l < h → h = data.sfreq / 2 →
      bandpass_filter data l h = .error .nonPositiveTransBandwidth) := by
  refine ⟨fun h0 hlh hhn => ?_, fun h0 hhl hln => ?_, fun hn => ?_,
    fun h0 hlh hhn => ?_⟩
  · rcases eq_or_lt_of_le h0 with h0' | h0'
    · simp [bandpass_filter, Except.map, mneCreateFilterKind,
        not_lt.mpr (le_of_lt hhn), hhn, ← h0']
    · simp [bandpass_filter, Except.map, mneCreateFilterKind,
        not_lt.mpr (le_of_lt hhn), hhn, ne_of_gt h0', h0', hlh]
  · have hl0 : (0 : ℚ) < l := lt_trans h0 hhl
    have hhn : h < data.sfreq / 2 := lt_trans hhl hln
    constructor <;>
      simp [bandpass_filter, Except.map, mneCreateFilterKind,
        not_lt.mpr (le_of_lt hhn), ne_of_gt hl0,
        not_lt.mpr (le_of_lt hhl), h0, hhl, hln]
  · simp [bandpass_filter, Except.map, mneCreateFilterKind, hn]
  · subst hhn
    rcases eq_or_lt_of_le h0 with h0' | h0'
    · simp [bandpass_filter, Except.map, mneCreateFilterKind, ← h0']
    · simp [bandpass_filter, Except.map, mneCreateFilterKind,
        ne_of_gt h0', h0', hlh]

/-- Witness for C5 amended: at 100 Hz (Nyquist 50), `(1, 40)` succeeds,
`(10, 5)` succeeds as a band-stop, `(1, 60)` fails above Nyquist, and
`(1, 50)` fails exactly at Nyquist. -/
theorem bandpass_filter_triage_witness :
    bandpass_filter sampleRaw100 1 40 = .ok sampleRaw100 ∧
    bandpass_filter sampleRaw100 10 5 = .ok sampleRaw100 ∧
    bandpass_filter sampleRaw100 1 60 = .error .freqAboveNyquist ∧
    bandpass_filter sampleRaw100 1 50 = .error .nonPositiveTransBandwidth :=
  ⟨(bandpass_filter_triage sampleRaw100 1 40).1 (by norm_num) (by norm_num)
      (by simp [sampleRaw100]; norm_num),
   ((bandpass_filter_triage sampleRaw100 10 5).2.1 (by norm_num) (by norm_num)
      (by simp [sampleRaw100]; norm_num)).1,
   (bandpass_filter_triage sampleRaw100 1 60).2.2.1
      (by simp [sampleRaw100]; norm_num),
   (bandpass_filter_triage sampleRaw100 1 50).2.2.2 (by norm_num) (by norm_num)
      (by simp [sampleRaw100]; norm_num)⟩

/-- C3 counterexample: `interpolate_nans` and `realign_final_session`
both mutate their inputs.  After `interpolate_nans([[1, NaN, 3]])` the
input array object holds `[[1, 2, 3]]`, not its original contents; after
`realign_final_session([s])` the input list object holds two sessions,
not its original one. -/
theorem preprocessing_mutates_input :
    (interpolate_nansCall [[some 1, none, some 3]]).1 ≠ [[some 1, none, some 3]] ∧
    (realignCall [sampleSession4]).1 ≠ [sampleSession4] := by
  constructor
  · have : (interpolate_nansCall [[some 1, none, some 3]]).1 =
        [[some 1, some 2, some 3]] := by
      simp [interpolate_nansCall, interpGo, interpRow, validPairs, validPairsFrom,
        interpRowFrom, npInterp]
      norm_num
    rw [this]
    simp
  · have : (realignCall [sampleSession4]).1 =
        [{ sampleSession4 with data := [[1, 2, 3]] },
         { sampleSession4 with data := [[3, 4]] }] := by
      simp [realignCall, realign_final_session, crop, nTimes, sampleSession4, pyRound]
    rw [this]
    simp

/-- C3 amended: `notch_filter`, `bandpass_filter`, `re_reference` and
`signal_detrend` copy their input, but `interpolate_nans` and
`realign_final_session` mutate theirs in place and return the mutated
input object itself: whenever a call returns at all, the returned value
is exactly the post-call contents of the input object. -/
theorem call_returns_mutated_input (m : NMatrix) (s : List Raw) :
    ((interpolate_nansCall m).2 = none ∨
      (interpolate_nansCall m).2 = some (interpolate_nansCall m).1) ∧
    ((realignCall s).2 = none ∨ (realignCall s).2 = some (realignCall s).1) := by
  constructor
  · rcases h : (interpGo m).2 with _ | _ <;>
      simp [interpolate_nansCall, h]
  · rcases h : realign_final_session s with _ | l <;>
      simp [realignCall, h]

/-- C1 counterexample: on a single 4-sample session, the two result
sessions have 3 and 2 samples — not `⌊4/2⌋ = 2` and `2` — because MNE's
`crop(tmax=...)` includes the sample at `tmax`, so the midpoint sample
appears in BOTH halves and concatenating the halves does not reproduce
the session. -/
theorem realign_final_session_duplicates_midpoint :
    realign_final_session [sampleSession4] =
      some [{ sampleSession4 with data := [[1, 2, 3]] },
            { sampleSession4 with data := [[3, 4]] }] ∧
    nTimes { sampleSession4 with data := [[1, 2, 3]] } = 3 ∧
    (3 : ℕ) ≠ 4 / 2 ∧
    ([1, 2, 3] ++ [3, 4] : List ℚ) ≠ [1, 2, 3, 4] := by
  refine ⟨?_, by simp [nTimes], by norm_num, by simp⟩
  simp [realign_final_session, crop, nTimes, sampleSession4, pyRound]

/-- C1 amended: `realign_final_session([s])` on a session of `N ≥ 1`
samples yields two sessions of lengths `⌊N/2⌋ + 1` and `N − ⌊N/2⌋`: the
first half is samples `[0, mid]` (inclusive!), the second half is
samples `[mid, N)`, the midpoint sample `mid = ⌊N/2⌋` is shared by both
halves, and the original session is reproduced by concatenating the
first half without its final sample with the second half. -/
theorem realign_single_session (s : Raw) (hf : 0 < s.sfreq)
    (h1 : 1 ≤ nTimes s) (hrect : ∀ r ∈ s.data, r.length = nTimes s) :
    realign_final_session [s] =
      some [{ s with data := s.data.map (fun r => r.take (nTimes s / 2 + 1)) },
            { s with data := s.data.map (fun r => r.drop (nTimes s / 2)) }] ∧
    ∀ r ∈ s.data,
      (r.take (nTimes s / 2 + 1)).length = nTimes s / 2 + 1 ∧
      (r.drop (nTimes s / 2)).length = nTimes s - nTimes s / 2 ∧
      (r.take (nTimes s / 2 + 1)).dropLast ++ r.drop (nTimes s / 2) = r := by
  have hmidN : nTimes s / 2 < nTimes s := Nat.div_lt_self (by omega) (by norm_num)
  have hq : ((nTimes s / 2 : ℕ) : ℚ) / s.sfreq * s.sfreq = ((nTimes s / 2 : ℕ) : ℚ) :=
    div_mul_cancel₀ _ (ne_of_gt hf)
  have hzero : pyRound (0 * s.sfreq) = 0 := by
    rw [zero_mul]
    simpa using pyRound_intCast 0
  have hmid : pyRound (((nTimes s / 2 : ℕ) : ℚ) / s.sfreq * s.sfreq) =
      (nTimes s / 2 : ℕ) := by
    rw [hq, pyRound_natCast]
  constructor
  · simp only [realign_final_session, List.getLast?_singleton, List.dropLast_single,
      crop, hzero, hmid, List.nil_append]
    refine Option.some_inj.mpr ?_
    refine List.cons_eq_cons.mpr ⟨?_, List.cons_eq_cons.mpr ⟨?_, rfl⟩⟩
    · have hsmin : (max (0 : ℤ) 0) = 0 := by simp
      have hsmax : min ((nTimes s / 2 : ℕ) : ℤ) ((nTimes s : ℤ) - 1) =
          ((nTimes s / 2 : ℕ) : ℤ) := by
        apply min_eq_left
        omega
      rw [hsmin, hsmax]
      refine Raw.mk.injEq _ _ _ _ _ _ _ _ ▸ ?_
      simp only [Raw.mk.injEq, true_and, and_true]
      apply List.map_congr_left
      intro r _
      have : (((nTimes s / 2 : ℕ) : ℤ) - 0 + 1).toNat = nTimes s / 2 + 1 := by omega
      rw [this, Int.toNat_zero, List.drop_zero]
    · have hsmin : max ((nTimes s / 2 : ℕ) : ℤ) 0 = ((nTimes s / 2 : ℕ) : ℤ) := by
        apply max_eq_left
        omega
      rw [hsmin]
      simp only [Raw.mk.injEq, true_and, and_true]
      apply List.map_congr_left
      intro r hr
      have hcount : ((nTimes s : ℤ) - 1 - ((nTimes s / 2 : ℕ) : ℤ) + 1).toNat =
          nTimes s - nTimes s / 2 := by omega
      rw [hcount, Int.toNat_natCast]
      have hlen : (r.drop (nTimes s / 2)).length = nTimes s - nTimes s / 2 := by
        rw [List.length_drop, hrect r hr]
      rw [← hlen, List.take_length]
  · intro r hr
    have hlr : r.length = nTimes s := hrect r hr
    refine ⟨?_, ?_, ?_⟩
    · rw [List.length_take, hlr]
      omega
    · rw [List.length_drop, hlr]
    · have h1 : (r.take (nTimes s / 2 + 1)).dropLast = r.take (nTimes s / 2) := by
        rw [List.dropLast_eq_take, List.take_take, List.length_take, hlr]
        congr 1
        omega
      rw [h1, List.take_append_drop]

/-- Witness for C1 amended: the split of the concrete 4-sample session,
with lengths `3 = ⌊4/2⌋ + 1` and `2 = 4 − ⌊4/2⌋`. -/
theorem realign_single_session_witness :
    realign_final_session [sampleSession4] =
      some [{ sampleSession4 with
                data := sampleSession4.data.map
                  (fun r => r.take (nTimes sampleSession4 / 2 + 1)) },
            { sampleSession4 with
                data := sampleSession4.data.map
                  (fun r => r.drop (nTimes sampleSession4 / 2)) }] ∧
    ∀ r ∈ sampleSession4.data,
      (r.take (nTimes sampleSession4 / 2 + 1)).length = nTimes sampleSession4 / 2 + 1 ∧
      (r.drop (nTimes sampleSession4 / 2)).length =
        nTimes sampleSession4 - nTimes sampleSession4 / 2 ∧
      (r.take (nTimes sampleSession4 / 2 + 1)).dropLast ++
        r.drop (nTimes sampleSession4 / 2) = r :=
  realign_single_session sampleSession4 (by norm_num [sampleSession4])
    (by norm_num [nTimes, sampleSession4]) (by simp [nTimes, sampleSession4])

/-- C10: `create_epochs` anchors each window at sample
`int(start_time * sfreq)` — integer truncation, which on nonnegative
start times is `⌊start_time * sfreq⌋`; at 100 Hz a start time of
`0.999 s` anchors at sample 99, not at the nearest sample 100
(`round(0.999 * 100) = 100`). -/
theorem create_epochs_event_truncation (start_times : List ℚ) (sfreq : ℚ)
    (ht : ∀ t ∈ start_times, 0 ≤ t) (hs : 0 ≤ sfreq) :
    epochEvents start_times sfreq = start_times.map (fun t => ⌊t * sfreq⌋) ∧
    epochEvents [999/1000] 100 = [99] ∧
    pyRound ((999/1000 : ℚ) * 100) = 100 := by
  refine ⟨?_, ?_, by norm_num [pyRound]⟩
  · apply List.map_congr_left
    intro t htm
    exact pyInt_nonneg _ (mul_nonneg (ht t htm) hs)
  · simp only [epochEvents, List.map_cons, List.map_nil]
    norm_num [pyInt]

/-- Witness for C10: instantiated at the single start time `0.999 s`
and 100 Hz. -/
theorem create_epochs_event_truncation_witness :
    epochEvents [999/1000] 100 =
      ([999/1000] : List ℚ).map (fun t => ⌊t * 100⌋) ∧
    epochEvents [999/1000] 100 = [99] ∧
    pyRound ((999/1000 : ℚ) * 100) = 100 :=
  create_epochs_event_truncation [999/1000] 100 (by norm_num) (by norm_num)

/-- C4: on a container sampled at 100 Hz with at least 400 samples,
`create_epochs(c, [0, 2], duration=2)` yields exactly two windows, the
first covering samples `[0, 200)` and the second samples `[200, 400)`
(so they do not overlap and the second starts at sample 200), each of
length exactly `round(2 * 100) = 200` samples. -/
theorem create_epochs_two_windows (data : Raw) (hf : data.sfreq = 100)
    (hrect : ∀ r ∈ data.data, r.length = nTimes data)
    (hn : 400 ≤ nTimes data) :
    create_epochs data [0, 2] 2 =
      [data.data.map (fun r => r.take 200),
       data.data.map (fun r => (r.drop 200).take 200)] ∧
    ∀ w ∈ create_epochs data [0, 2] 2, ∀ r ∈ w, r.length = 200 := by
  have hev : epochEvents [0, 2] (100 : ℚ) = [0, 200] := by
    simp only [epochEvents, List.map_cons, List.map_nil]
    norm_num [pyInt]
  have hs1 : pyRound ((0 : ℚ) * 100) = 0 := by norm_num [pyRound]
  have hs2 : pyRound (((2 : ℚ) - 1 / 100) * 100) = 199 := by norm_num [pyRound]
  have h199 : 199 < nTimes data := by omega
  have h399 : 399 < nTimes data := by omega
  have hmain : create_epochs data [0, 2] 2 =
      [data.data.map (fun r => r.take 200),
       data.data.map (fun r => (r.drop 200).take 200)] := by
    simp only [create_epochs, hf, hev, mneEpochsData, hs1, hs2]
    simp [List.filter, h199, h399]
  refine ⟨hmain, ?_⟩
  rw [hmain]
  intro w hw r hr
  rcases List.mem_cons.mp hw with rfl | hw'
  · obtain ⟨r₀, hr₀, rfl⟩ := List.mem_map.mp hr
    rw [List.length_take, hrect r₀ hr₀]
    omega
  · rcases List.mem_cons.mp hw' with rfl | hw''
    · obtain ⟨r₀, hr₀, rfl⟩ := List.mem_map.mp hr
      rw [List.length_take, List.length_drop, hrect r₀ hr₀]
      omega
    · simp at hw''

/-- Witness for C4: a one-channel container of 400 zero samples at
100 Hz splits into its two 200-sample windows. -/
theorem create_epochs_two_windows_witness :
    create_epochs sampleRaw400 [0, 2] 2 =
      [sampleRaw400.data.map (fun r => r.take 200),
       sampleRaw400.data.map (fun r => (r.drop 200).take 200)] ∧
    ∀ w ∈ create_epochs sampleRaw400 [0, 2] 2, ∀ r ∈ w, r.length = 200 :=
  create_epochs_two_windows sampleRaw400 rfl
    (by
      intro r hr
      rw [show sampleRaw400.data = [List.replicate 400 0] from rfl,
        List.mem_singleton] at hr
      subst hr
      rfl)
    (le_of_eq nTimes_sampleRaw400.symm)

/-- `List.getD` through `mapIdx` at an in-range index. -/
theorem getD_mapIdx (r : List ℚ) (f : ℕ → ℚ → ℚ) (t : ℕ) (h : t < r.length) :
    (r.mapIdx f).getD t 0 = f t (r.getD t 0) := by
  have h' : t < (r.mapIdx f).length := by rw [List.length_mapIdx]; exact h
  rw [List.getD_eq_getElem _ _ h', List.getD_eq_getElem _ _ h]
  simpa only [List.get_eq_getElem] using List.get_mapIdx r f t h

/-- Summing `g r - c` over a list of rows. -/
theorem sum_map_sub_const (l : List (List ℚ)) (g : List ℚ → ℚ) (c : ℚ) :
    (l.map (fun r => g r - c)).sum = (l.map g).sum - l.length * c := by
  induction l with
  | nil => simp
  | cons r rest ih =>
    simp only [List.map_cons, List.sum_cons, ih, List.length_cons]
    push_cast
    ring

/-- C8: `re_reference(c, "average")` on an all-EEG container subtracts
the cross-channel mean from every channel at every sample, so the
per-sample cross-channel mean of the result is exactly zero. -/
theorem re_reference_average_zero_mean (data : Raw)
    (hty : data.ch_types = List.replicate data.data.length "eeg")
    (hn : data.ch_names.length = data.data.length)
    (hne : data.data ≠ [])
    (hrect : ∀ r ∈ data.data, r.length = nTimes data) :
    ∀ t < nTimes data, colSum (re_reference data .average).data t = 0 := by
  intro t ht
  have hlenty : data.ch_types.length = data.data.length := by
    rw [hty, List.length_replicate]
  have hlenzip : (data.ch_names.zip data.ch_types).length = data.data.length := by
    rw [List.length_zip, hn, hlenty, min_self]
  have htag : ∀ p ∈ (data.ch_names.zip data.ch_types).zip data.data,
      p.1.2 = "eeg" := by
    intro p hp
    obtain ⟨⟨a, b⟩, c⟩ := p
    have h1 : (a, b) ∈ data.ch_names.zip data.ch_types := (List.of_mem_zip hp).1
    have h2 : b ∈ data.ch_types := (List.of_mem_zip h1).2
    rw [hty] at h2
    exact List.eq_of_mem_replicate h2
  have hsnd : ((data.ch_names.zip data.ch_types).zip data.data).map
      (fun p => p.2) = data.data :=
    List.map_snd_zip _ _ (le_of_eq hlenzip.symm)
  have hfilter : ((data.ch_names.zip data.ch_types).zip data.data).filter
      (fun p => p.1.2 = "eeg") = (data.ch_names.zip data.ch_types).zip data.data :=
    List.filter_eq_self.mpr (fun a ha => decide_eq_true (htag a ha))
  have hmap : ∀ (f : ℕ → ℚ → ℚ),
      ((data.ch_names.zip data.ch_types).zip data.data).map
        (fun p => if p.1.2 = "eeg" then p.2.mapIdx f else p.2) =
      data.data.map (fun r => r.mapIdx f) := by
    intro f
    rw [List.map_congr_left (fun p hp => if_pos (htag p hp))]
    rw [show (fun (p : (String × String) × List ℚ) => p.2.mapIdx f) =
        ((fun r => r.mapIdx f) ∘ (fun p => p.2)) from rfl]
    rw [← List.map_map, hsnd]
  have hre : (re_reference data .average).data =
      data.data.map (fun r =>
        r.mapIdx (fun u v => v - colSum data.data u / data.data.length)) := by
    simp only [re_reference, hfilter, hsnd, hmap]
  rw [hre, colSum]
  have hterm : ∀ r ∈ data.data,
      ((r.mapIdx (fun u v => v - colSum data.data u / data.data.length)).getD t 0) =
        r.getD t 0 - colSum data.data t / data.data.length := by
    intro r hr
    exact getD_mapIdx r _ t (by rw [hrect r hr]; exact ht)
  rw [List.map_map]
  have hcongr : ∀ r ∈ data.data,
      ((fun r => r.getD t 0) ∘
        (fun r => r.mapIdx (fun u v => v - colSum data.data u / data.data.length))) r =
      r.getD t 0 - colSum data.data t / data.data.length := by
    intro r hr
    simp only [Function.comp_apply]
    exact hterm r hr
  rw [List.map_congr_left hcongr]
  rw [sum_map_sub_const data.data (fun r => r.getD t 0)]
  have hlen : (data.data.length : ℚ) ≠ 0 := by
    have h0 : 0 < data.data.length := List.length_pos.mpr hne
    exact Nat.cast_ne_zero.mpr (by omega)
  rw [show (data.data.map (fun r => r.getD t 0)).sum = colSum data.data t from rfl]
  field_simp

/-- Witness for C8: both sample columns of the concrete two-channel
container have zero cross-channel mean after average re-referencing. -/
theorem re_reference_average_zero_mean_witness :
    colSum (re_reference sampleRaw100 .average).data 0 = 0 ∧
    colSum (re_reference sampleRaw100 .average).data 1 = 0 :=
  ⟨re_reference_average_zero_mean sampleRaw100 rfl rfl (by simp [sampleRaw100])
      (by intro r hr; simp [sampleRaw100] at hr; rcases hr with rfl | rfl <;> rfl)
      0 (by norm_num [sampleRaw100, nTimes]),
   re_reference_average_zero_mean sampleRaw100 rfl rfl (by simp [sampleRaw100])
      (by intro r hr; simp [sampleRaw100] at hr; rcases hr with rfl | rfl <;> rfl)
      1 (by norm_num [sampleRaw100, nTimes])⟩

/-- Gauss sum over `range n`, cast to `ℚ`. -/
theorem sum_range_cast (n : ℕ) :
    ∑ k ∈ Finset.range n, (k : ℚ) = n * (n - 1) / 2 := by
  induction n with
  | zero => simp
  | succ m ih =>
    rw [Finset.sum_range_succ, ih]
    push_cast
    ring

/-- Sum of squares over `range n`, cast to `ℚ`. -/
theorem sum_range_sq_cast (n : ℕ) :
    ∑ k ∈ Finset.range n, ((k : ℚ)) ^ 2 = n * (n - 1) * (2 * n - 1) / 6 := by
  induction n with
  | zero => simp
  | succ m ih =>
    rw [Finset.sum_range_succ, ih]
    push_cast
    ring

/-- `List.getD` through a map over `range n` at an in-range index. -/
theorem getD_range_map (n : ℕ) (f : ℕ → ℚ) (k : ℕ) (h : k < n) :
    ((List.range n).map f).getD k 0 = f k := by
  rw [List.getD_eq_getElem _ _ (by simpa using h), List.getElem_map, List.getElem_range]

/-- A list is the map of its entries over `range`. -/
theorem map_range_getD (z : List ℚ) :
    (List.range z.length).map (fun k => z.getD k 0) = z := by
  apply List.ext_getElem (by simp)
  intro i h1 h2
  rw [List.getElem_map, List.getElem_range, List.getD_eq_getElem _ _ h2]

/-- The least-squares denominator `n·Σk² − (Σk)²` in closed form. -/
theorem detrend_denom (n : ℕ) :
    (n : ℚ) * (∑ k ∈ Finset.range n, ((k : ℚ)) ^ 2) -
      (∑ k ∈ Finset.range n, (k : ℚ)) ^ 2 =
    (n : ℚ) ^ 2 * ((n : ℚ) - 1) * ((n : ℚ) + 1) / 12 := by
  rw [sum_range_cast, sum_range_sq_cast]
  ring

/-- A row whose plain and index-weighted sums vanish is a fixed point of
the detrend. -/
theorem scipyDetrend_of_sums_zero (z : List ℚ)
    (h1 : ∑ k ∈ Finset.range z.length, z.getD k 0 = 0)
    (h2 : ∑ k ∈ Finset.range z.length, (k : ℚ) * z.getD k 0 = 0) :
    scipyDetrend z = z := by
  simp only [scipyDetrend, h1, h2, mul_zero, zero_mul, sub_zero, zero_div,
    zero_add]
  exact map_range_getD z

/-- The least-squares residual of a row has vanishing plain and
index-weighted sums, so detrending a row twice equals detrending it
once. -/
theorem scipyDetrend_idempotent (y : List ℚ) :
    scipyDetrend (scipyDetrend y) = scipyDetrend y := by
  rcases Nat.eq_zero_or_pos y.length with h0 | hpos
  · rw [List.length_eq_zero] at h0
    subst h0
    rfl
  set n := y.length with hn
  set sx : ℚ := ∑ k ∈ Finset.range n, (k : ℚ) with hsx
  set sxx : ℚ := ∑ k ∈ Finset.range n, ((k : ℚ)) ^ 2 with hsxx
  set sy : ℚ := ∑ k ∈ Finset.range n, y.getD k 0 with hsy
  set sxy : ℚ := ∑ k ∈ Finset.range n, (k : ℚ) * y.getD k 0 with hsxy
  set b : ℚ := ((n : ℚ) * sxy - sx * sy) / ((n : ℚ) * sxx - sx ^ 2) with hb
  set a : ℚ := (sy - b * sx) / (n : ℚ) with ha
  have hr : scipyDetrend y =
      (List.range n).map (fun k => y.getD k 0 - (a + b * (k : ℚ))) := rfl
  have hnq : (n : ℚ) ≠ 0 := Nat.cast_ne_zero.mpr (by omega)
  have hrlen : (scipyDetrend y).length = n := by
    rw [hr, List.length_map, List.length_range]
  have hrget : ∀ k, k < n →
      (scipyDetrend y).getD k 0 = y.getD k 0 - (a + b * (k : ℚ)) := by
    intro k hk
    rw [hr]
    exact getD_range_map n _ k hk
  have hna : (n : ℚ) * a = sy - b * sx := by
    rw [ha]
    field_simp
  have hkey : ((n : ℚ) * sxy - sx * sy) - b * ((n : ℚ) * sxx - sx ^ 2) = 0 := by
    rcases eq_or_ne ((n : ℚ) * sxx - sx ^ 2) 0 with hD | hD
    · have hn1 : n = 1 := by
        have h12 : (n : ℚ) ^ 2 * ((n : ℚ) - 1) * ((n : ℚ) + 1) = 0 := by
          have hd := hD
          rw [hsxx, hsx, detrend_denom] at hd
          field_simp at hd
          exact hd
        rcases mul_eq_zero.mp h12 with h | h
        · rcases mul_eq_zero.mp h with h' | h'
          · exact absurd (pow_eq_zero_iff two_ne_zero |>.mp h') hnq
          · have : (n : ℚ) = 1 := by linarith
            exact_mod_cast this
        · exfalso
          have hge : (0 : ℚ) ≤ (n : ℚ) := Nat.cast_nonneg n
          have : (n : ℚ) = -1 := by linarith
          linarith
      have hzero : (n : ℚ) * sxy - sx * sy = 0 := by
        rw [hsxy, hsx, hsy, hn1]
        simp
      rw [hb, hzero, zero_div, zero_mul, sub_zero]
    · rw [hb]
      field_simp
  have hexp1 : ∑ k ∈ Finset.range n, (y.getD k 0 - (a + b * (k : ℚ))) =
      sy - ((n : ℚ) * a + b * sx) := by
    rw [Finset.sum_sub_distrib, Finset.sum_add_distrib, Finset.sum_const,
      Finset.card_range, nsmul_eq_mul, ← Finset.mul_sum, ← hsx, ← hsy]
  have hsy' : ∑ k ∈ Finset.range n, (scipyDetrend y).getD k 0 = 0 := by
    rw [Finset.sum_congr rfl (fun k hk => hrget k (Finset.mem_range.mp hk)), hexp1]
    linarith [hna]
  have hexp2 : ∑ k ∈ Finset.range n, (k : ℚ) * (y.getD k 0 - (a + b * (k : ℚ))) =
      sxy - (a * sx + b * sxx) := by
    have hpoint : ∀ k ∈ Finset.range n,
        (k : ℚ) * (y.getD k 0 - (a + b * (k : ℚ))) =
        (k : ℚ) * y.getD k 0 - (a * (k : ℚ) + b * ((k : ℚ)) ^ 2) := by
      intro k _
      ring
    rw [Finset.sum_congr rfl hpoint, Finset.sum_sub_distrib, Finset.sum_add_distrib,
      ← Finset.mul_sum, ← Finset.mul_sum, ← hsx, ← hsxx, ← hsxy]
  have hsxy' : ∑ k ∈ Finset.range n, (k : ℚ) * (scipyDetrend y).getD k 0 = 0 := by
    rw [Finset.sum_congr rfl
      (fun k hk => by rw [hrget k (Finset.mem_range.mp hk)]), hexp2]
    have h2 : (n : ℚ) * (sxy - (a * sx + b * sxx)) = 0 := by
      have hsplit : (n : ℚ) * (sxy - (a * sx + b * sxx)) =
          (((n : ℚ) * sxy - sx * sy) - b * ((n : ℚ) * sxx - sx ^ 2)) +
            sx * (sy - b * sx - (n : ℚ) * a) := by
        ring
      rw [hsplit, hkey]
      rw [show sy - b * sx - (n : ℚ) * a = 0 from by linarith [hna]]
      ring
    exact (mul_eq_zero.mp h2).resolve_left hnq
  exact scipyDetrend_of_sums_zero (scipyDetrend y)
    (by rw [hrlen]; exact hsy') (by rw [hrlen]; exact hsxy')

/-- Applying a per-element idempotent transformation through `zipWith`
twice equals applying it once. -/
theorem zipWith_same_idem {α β : Type} (f : α → β → β)
    (hf : ∀ a r, f a (f a r) = f a r) :
    ∀ (ts : List α) (ds : List β),
      List.zipWith f ts (List.zipWith f ts ds) = List.zipWith f ts ds := by
  intro ts
  induction ts with
  | nil => intro ds; simp
  | cons t ts ih =>
    intro ds
    cases ds with
    | nil => simp
    | cons d ds => simp [hf, ih]

/-- C9: `signal_detrend` is idempotent — applying it twice gives exactly
the container obtained from one application, since each EEG channel's
least-squares linear residual already has zero residual trend, and
non-EEG channels are untouched. -/
theorem signal_detrend_idempotent (c : Raw) :
    signal_detrend (signal_detrend c) = signal_detrend c := by
  simp only [signal_detrend]
  refine congrArg (fun d => { c with data := d }) ?_
  apply zipWith_same_idem
  intro ty r
  by_cases hty : ty = "eeg" <;> simp [hty, scipyDetrend_idempotent]


/-- Valid pairs collected from index `k` onward all have index at least
`k`. -/
theorem validPairsFrom_fst_ge (k : ℕ) (r : NRow) :
    ∀ p ∈ validPairsFrom k r, (k : ℚ) ≤ p.1 := by
  induction r generalizing k with
  | nil => intro p hp; simp [validPairsFrom] at hp
  | cons o rest ih =>
    intro p hp
    cases o with
    | none =>
      have := ih (k + 1) p hp
      push_cast at this ⊢
      linarith
    | some v =>
      rw [validPairsFrom, List.mem_cons] at hp
      rcases hp with rfl | hp
      · simp
      · have := ih (k + 1) p hp
        push_cast at this ⊢
        linarith

/-- The valid pairs of a row are strictly increasing in index. -/
theorem validPairsFrom_sorted (k : ℕ) (r : NRow) :
    List.Pairwise (fun p q => p.1 < q.1) (validPairsFrom k r) := by
  induction r generalizing k with
  | nil => simp [validPairsFrom]
  | cons o rest ih =>
    cases o with
    | none => exact ih (k + 1)
    | some v =>
      rw [validPairsFrom]
      refine List.Pairwise.cons ?_ (ih (k + 1))
      intro q hq
      have := validPairsFrom_fst_ge (k + 1) rest q hq
      push_cast at this ⊢
      linarith

/-- Every valid pair records an actual valid sample of the row. -/
theorem validPairsFrom_mem (k : ℕ) (r : NRow) :
    ∀ p ∈ validPairsFrom k r, ∃ i, i < r.length ∧ p.1 = ((k + i : ℕ) : ℚ) ∧
      r.getD i none = some p.2 := by
  induction r generalizing k with
  | nil => intro p hp; simp [validPairsFrom] at hp
  | cons o rest ih =>
    intro p hp
    cases o with
    | none =>
      obtain ⟨i, hi, hx, hv⟩ := ih (k + 1) p hp
      exact ⟨i + 1, by simpa using hi, by push_cast at hx ⊢; linarith, by simpa using hv⟩
    | some v =>
      rw [validPairsFrom, List.mem_cons] at hp
      rcases hp with rfl | hp
      · exact ⟨0, by simp, by simp, by simp⟩
      · obtain ⟨i, hi, hx, hv⟩ := ih (k + 1) p hp
        exact ⟨i + 1, by simpa using hi, by push_cast at hx ⊢; linarith, by simpa using hv⟩

/-- `np.interp` left of (or at) the first sample point clamps to its
value. -/
theorem npInterp_head (x : ℚ) (p : ℚ × ℚ) (rest : List (ℚ × ℚ))
    (h : x ≤ p.1) : npInterp x (p :: rest) = p.2 := by
  cases rest with
  | nil => rfl
  | cons q rest' => rw [npInterp, if_pos h]

/-- `np.interp` right of the last sample point clamps to its value. -/
theorem npInterp_last (x : ℚ) :
    ∀ (pts : List (ℚ × ℚ)), (∀ p ∈ pts, p.1 < x) →
      ∀ a, pts.getLast? = some a → npInterp x pts = a.2 := by
  intro pts
  induction pts with
  | nil => intro _ a ha; simp at ha
  | cons p rest ih =>
    intro hall a ha
    cases rest with
    | nil =>
      rw [List.getLast?_singleton, Option.some_inj] at ha
      subst ha
      rfl
    | cons q rest' =>
      rw [List.getLast?_cons_cons] at ha
      rw [npInterp, if_neg (by push_neg; exact hall p (by simp)),
        if_neg (by push_neg; exact hall q (by simp))]
      exact ih (fun s hs => hall s (List.mem_cons_of_mem _ hs)) a ha

/-- `np.interp` between two adjacent sample points is the linear
interpolation on that interval. -/
theorem npInterp_adjacent (x : ℚ) (a b : ℚ × ℚ) :
    ∀ (pre post : List (ℚ × ℚ)),
      List.Pairwise (fun p q => p.1 < q.1) (pre ++ a :: b :: post) →
      a.1 < x → x ≤ b.1 →
      npInterp x (pre ++ a :: b :: post) =
        a.2 + (b.2 - a.2) * (x - a.1) / (b.1 - a.1) := by
  intro pre
  induction pre with
  | nil =>
    intro post _ hax hxb
    rw [List.nil_append, npInterp, if_neg (by push_neg; exact hax), if_pos hxb]
  | cons c pre' ih =>
    intro post hsort hax hxb
    have hc : ∀ q ∈ pre' ++ a :: b :: post, c.1 < q.1 := (List.pairwise_cons.mp hsort).1
    have hsort' : List.Pairwise (fun p q => p.1 < q.1) (pre' ++ a :: b :: post) :=
      (List.pairwise_cons.mp hsort).2
    have hcx : c.1 < x := lt_trans (hc a (by simp)) hax
    rw [List.cons_append]
    cases hpre : pre' ++ a :: b :: post with
    | nil => simp at hpre
    | cons d tail =>
      have hdx : d.1 < x := by
        have ha_mem : a ∈ d :: tail := by rw [← hpre]; simp
        rcases List.mem_cons.mp ha_mem with rfl | hat
        · exact hax
        · have hsort'' := hpre ▸ hsort'
          exact lt_trans ((List.pairwise_cons.mp hsort'').1 a hat) hax
      rw [npInterp, if_neg (by push_neg; exact hcx), if_neg (by push_neg; exact hdx)]
      rw [← hpre, ih post hsort' hax hxb]

/-- In a strictly sorted pair list avoiding `x`, the last point below
`x` and the first point above `x` are adjacent. -/
theorem sorted_split_adjacent (x : ℚ) :
    ∀ (pts : List (ℚ × ℚ)), List.Pairwise (fun p q => p.1 < q.1) pts →
      (∀ p ∈ pts, p.1 ≠ x) →
      ∀ a b, (pts.filter (fun p => p.1 < x)).getLast? = some a →
        (pts.filter (fun p => x < p.1)).head? = some b →
        ∃ pre post, pts = pre ++ a :: b :: post ∧ a.1 < x ∧ x < b.1 := by
  intro pts
  induction pts with
  | nil => intro _ _ a b h1 _; simp at h1
  | cons p rest ih =>
    intro hsort hne a b h1 h2
    have hphead : ∀ q ∈ rest, p.1 < q.1 := (List.pairwise_cons.mp hsort).1
    have hsrest : List.Pairwise (fun p q => p.1 < q.1) rest :=
      (List.pairwise_cons.mp hsort).2
    have hnerest : ∀ q ∈ rest, q.1 ≠ x :=
      fun q hq => hne q (List.mem_cons_of_mem _ hq)
    by_cases hpx : p.1 < x
    · rw [List.filter_cons_of_pos (by simpa using hpx)] at h1
      rw [List.filter_cons_of_neg (by simp; exact le_of_lt hpx)] at h2
      cases hfr : rest.filter (fun q => decide (q.1 < x)) with
      | nil =>
        rw [hfr, List.getLast?_singleton, Option.some_inj] at h1
        subst h1
        have hrestgt : ∀ q ∈ rest, x < q.1 := by
          intro q hq
          have hnotlt : ¬ q.1 < x := by
            intro hlt
            have : q ∈ rest.filter (fun q => decide (q.1 < x)) :=
              List.mem_filter.mpr ⟨hq, by simpa using hlt⟩
            rw [hfr] at this
            simp at this
          rcases lt_or_eq_of_le (not_lt.mp hnotlt) with h | h
          · exact h
          · exact absurd h.symm (hnerest q hq)
        have hfilgt : rest.filter (fun q => decide (x < q.1)) = rest :=
          List.filter_eq_self.mpr (fun q hq => by simpa using hrestgt q hq)
        rw [hfilgt] at h2
        cases rest with
        | nil => simp at h2
        | cons c post =>
          rw [List.head?_cons, Option.some_inj] at h2
          subst h2
          exact ⟨[], post, by simp, hpx, hrestgt c (by simp)⟩
      | cons c cs =>
        rw [hfr, List.getLast?_cons_cons] at h1
        rw [← hfr] at h1
        obtain ⟨pre, post, hsplit, hax, hxb⟩ := ih hsrest hnerest a b h1 h2
        exact ⟨p :: pre, post, by rw [hsplit, List.cons_append], hax, hxb⟩
    · exfalso
      have hxp : x < p.1 :=
        lt_of_le_of_ne (not_lt.mp hpx) (fun h => hne p (by simp) h.symm)
      have hfil : (p :: rest).filter (fun q => decide (q.1 < x)) = [] := by
        apply List.filter_eq_nil_iff.mpr
        intro q hq
        rcases List.mem_cons.mp hq with rfl | hq'
        · simpa using not_lt.mpr (le_of_lt hxp)
        · simpa using not_lt.mpr (le_of_lt (lt_trans hxp (hphead q hq')))
      rw [hfil] at h1
      simp at h1

/-- The interpolated row has the same length as the input row. -/
theorem interpRowFrom_length (pts : List (ℚ × ℚ)) :
    ∀ (r : NRow) (k : ℕ), (interpRowFrom pts k r).length = r.length := by
  intro r
  induction r with
  | nil => intro k; rfl
  | cons o rest ih =>
    intro k
    cases o <;> simp [interpRowFrom, ih (k + 1)]

/-- Entry `i` of the interpolated row: valid samples are untouched,
missing samples are replaced by `np.interp` of their index. -/
theorem interpRowFrom_getD (pts : List (ℚ × ℚ)) :
    ∀ (r : NRow) (k i : ℕ), i < r.length →
      (interpRowFrom pts k r).getD i none =
        (match r.getD i none with
         | some v => some v
         | none => some (npInterp ((k + i : ℕ) : ℚ) pts)) := by
  intro r
  induction r with
  | nil => intro k i hi; simp at hi
  | cons o rest ih =>
    intro k i hi
    cases i with
    | zero =>
      cases o <;> simp [interpRowFrom]
    | succ j =>
      have hj : j < rest.length := by simpa using hi
      cases o with
      | none =>
        rw [interpRowFrom, List.getD_cons_succ, List.getD_cons_succ,
          ih (k + 1) j hj]
        have : k + 1 + j = k + (j + 1) := by omega
        rw [this]
      | some v =>
        rw [interpRowFrom, List.getD_cons_succ, List.getD_cons_succ,
          ih (k + 1) j hj]
        have : k + 1 + j = k + (j + 1) := by omega
        rw [this]

/-- C2: for every channel row with at least one valid sample,
`interpolate_nans` succeeds and returns a row of the same length with no
missing samples, in which valid samples are untouched, every missing
sample lying strictly between valid samples becomes the linear
interpolation between its nearest valid neighbors by sample index, and
missing samples before the first (after the last) valid sample take that
nearest valid sample's value; in particular
`[1, NaN, 3, NaN, NaN, 6]` becomes `[1, 2, 3, 4, 5, 6]`. -/
theorem interpolate_nans_linear (r : NRow) (hval : validPairs r ≠ []) :
    (∃ r', interpolate_nans [r] = .ok [r'] ∧ r'.length = r.length ∧
      (∀ i v, i < r.length → r.getD i none = some v → r'.getD i none = some v) ∧
      (∀ i, i < r.length → r'.getD i none ≠ none) ∧
      (∀ i, i < r.length → r.getD i none = none →
        (∀ p yp q yq, prevValid r i = some (p, yp) → nextValid r i = some (q, yq) →
          r'.getD i none = some (yp + (yq - yp) * ((i : ℚ) - p) / (q - p))) ∧
        (prevValid r i = none → ∀ q yq, nextValid r i = some (q, yq) →
          r'.getD i none = some yq) ∧
        (∀ p yp, prevValid r i = some (p, yp) → nextValid r i = none →
          r'.getD i none = some yp))) ∧
    interpolate_nans [[some 1, none, some 3, none, none, some 6]] =
      .ok [[some 1, some 2, some 3, some 4, some 5, some 6]] := by
  constructor
  · set out := interpRowFrom (validPairs r) 0 r with hout
    have hrow : interpRow r = some out := by rw [interpRow, if_neg hval]
    have hok : interpolate_nans [r] = .ok [out] := by
      simp [interpolate_nans, interpolate_nansCall, interpGo, hrow]
    have hsorted : List.Pairwise (fun p q => p.1 < q.1) (validPairs r) :=
      validPairsFrom_sorted 0 r
    refine ⟨out, hok, interpRowFrom_length _ r 0, ?_, ?_, ?_⟩
    · intro i v hi hv
      rw [hout, interpRowFrom_getD _ r 0 i hi, hv]
    · intro i hi
      rw [hout, interpRowFrom_getD _ r 0 i hi]
      cases r.getD i none <;> simp
    · intro i hi hnone
      have hget : out.getD i none = some (npInterp ((i : ℕ) : ℚ) (validPairs r)) := by
        rw [hout, interpRowFrom_getD _ r 0 i hi, hnone, Nat.zero_add]
      have hne : ∀ p ∈ validPairs r, p.1 ≠ (i : ℚ) := by
        intro p hp heq
        obtain ⟨j, hj, hx, hv⟩ := validPairsFrom_mem 0 r p hp
        rw [Nat.zero_add] at hx
        have hij : j = i := Nat.cast_injective (by rw [← hx, heq])
        rw [hij, hnone] at hv
        exact Option.noConfusion hv
      refine ⟨?_, ?_, ?_⟩
      · intro p yp q yq hprev hnext
        obtain ⟨pre, post, hsplit, hax, hxb⟩ :=
          sorted_split_adjacent (i : ℚ) (validPairs r) hsorted hne
            (p, yp) (q, yq) hprev hnext
        rw [hget, hsplit,
          npInterp_adjacent (i : ℚ) (p, yp) (q, yq) pre post (hsplit ▸ hsorted)
            hax (le_of_lt hxb)]
      · intro hprev q yq hnext
        have hfil : (validPairs r).filter (fun p => decide (p.1 < (i : ℚ))) = [] := by
          rw [prevValid] at hprev
          exact List.getLast?_eq_none_iff.mp hprev
        have hall : ∀ p ∈ validPairs r, (i : ℚ) < p.1 := by
          intro p hp
          have hnotlt : ¬ p.1 < (i : ℚ) := by
            intro hlt
            have hmem : p ∈ (validPairs r).filter (fun p => decide (p.1 < (i : ℚ))) :=
              List.mem_filter.mpr ⟨hp, by simpa using hlt⟩
            rw [hfil] at hmem
            simp at hmem
          exact lt_of_le_of_ne (not_lt.mp hnotlt) (fun h => hne p hp h.symm)
        have hfilgt : (validPairs r).filter (fun p => decide ((i : ℚ) < p.1)) =
            validPairs r :=
          List.filter_eq_self.mpr (fun p hp => by simpa using hall p hp)
        rw [nextValid, hfilgt] at hnext
        cases hpts : validPairs r with
        | nil => exact absurd hpts hval
        | cons c tl =>
          rw [hpts, List.head?_cons, Option.some_inj] at hnext
          rw [hget, hpts, npInterp_head _ c tl
            (le_of_lt (hall c (by rw [hpts]; simp)))]
          rw [hnext]
      · intro p yp hprev hnext
        have hfil : (validPairs r).filter (fun q => decide ((i : ℚ) < q.1)) = [] := by
          rw [nextValid] at hnext
          exact List.head?_eq_none_iff.mp hnext
        have hall : ∀ q ∈ validPairs r, q.1 < (i : ℚ) := by
          intro q hq
          have hnotlt : ¬ (i : ℚ) < q.1 := by
            intro hlt
            have hmem : q ∈ (validPairs r).filter (fun q => decide ((i : ℚ) < q.1)) :=
              List.mem_filter.mpr ⟨hq, by simpa using hlt⟩
            rw [hfil] at hmem
            simp at hmem
          exact lt_of_le_of_ne (not_lt.mp hnotlt) (hne q hq)
        have hfillt : (validPairs r).filter (fun q => decide (q.1 < (i : ℚ))) =
            validPairs r :=
          List.filter_eq_self.mpr (fun q hq => by simpa using hall q hq)
        rw [prevValid, hfillt] at hprev
        rw [hget, npInterp_last (i : ℚ) (validPairs r) hall (p, yp) hprev]
  · have hvc : validPairs [some 1, none, some 3, none, none, some 6] =
        [(0, 1), (2, 3), (5, 6)] := by
      norm_num [validPairs, validPairsFrom]
    have hrow : interpRow [some 1, none, some 3, none, none, some 6] =
        some [some 1, some 2, some 3, some 4, some 5, some 6] := by
      rw [interpRow, if_neg (by rw [hvc]; simp), hvc]
      norm_num [interpRowFrom, npInterp]
    simp [interpolate_nans, interpolate_nansCall, interpGo, hrow]

/-- Witness for C2: the spec's round-trip example, obtained by applying
the theorem at the concrete row. -/
theorem interpolate_nans_linear_witness :
    interpolate_nans [[some 1, none, some 3, none, none, some 6]] =
      .ok [[some 1, some 2, some 3, some 4, some 5, some 6]] :=
  (interpolate_nans_linear [some 1, none, some 3, none, none, some 6]
    (by
      have h : validPairs [some 1, none, some 3, none, none, some 6] =
          [(0, 1), (2, 3), (5, 6)] := by
        norm_num [validPairs, validPairsFrom]
      rw [h]
      simp)).2

end NeuroMarkers
